import Mathlib

/-!
Verification of the concurrency teaching corpus against its specification.

The repository's scripts call into a standard concurrency library; the
specification distils from them a minimal task-execution runtime
(Future, WorkerPool, TaskQueue, CooperativeScheduler, SyncPrimitives).
Components of that runtime that have no body in the repository sources
are modelled here from the specification's own words; functions that do
appear in the sources (`cpu_bound`, `AsyncCounter`, the squaring task)
are embedded from the source code.
-/

namespace Concurrency

/-! ## Future: single-assignment result cell (spec section 4.2) -/

/-- Modelled from the spec: the repository has no Future class of its own
(its scripts use a library Future); the spec's data model gives the states
Pending, Fulfilled(value), Failed(error), Cancelled. -/
inductive FutureState (T E : Type) where
  | pending
  | fulfilled (value : T)
  | failed (error : E)
  | cancelled
  deriving DecidableEq, Repr

/-- Error raised on misuse of a Future (spec section 7). -/
inductive FutureError where
  | invalidState
  deriving DecidableEq, Repr

/-- The three writer operations of a Future. -/
inductive FOp (T E : Type) where
  | resolve (value : T)
  | fail (error : E)
  | cancel
  deriving Repr

/-- Modelled from the spec: `resolve(value)` / `fail(error)` / `cancel()` are
each legal only from Pending state; calling on a non-pending Future fails
with InvalidStateError and leaves the state as it was. Returns the new state
together with the error, if any, reported to the caller. -/
def FutureState.apply : FutureState T E → FOp T E → FutureState T E × Option FutureError
  | .pending, .resolve v => (.fulfilled v, none)
  | .pending, .fail e => (.failed e, none)
  | .pending, .cancel => (.cancelled, none)
  | s, _ => (s, some .invalidState)

/-- Run a sequence of writer operations, keeping only the resulting state. -/
def FutureState.applyAll (s : FutureState T E) (ops : List (FOp T E)) : FutureState T E :=
  ops.foldl (fun st op => (st.apply op).1) s

theorem FutureState.apply_of_ne_pending {s : FutureState T E} (op : FOp T E)
    (h : s ≠ .pending) : s.apply op = (s, some .invalidState) := by
  cases s with
  | pending => exact absurd rfl h
  | fulfilled v => cases op <;> rfl
  | failed e => cases op <;> rfl
  | cancelled => cases op <;> rfl

theorem FutureState.applyAll_of_ne_pending {s : FutureState T E}
    (ops : List (FOp T E)) (h : s ≠ .pending) : s.applyAll ops = s := by
  induction ops with
  | nil => rfl
  | cons op rest ih =>
      show FutureState.applyAll (s.apply op).1 rest = s
      rw [FutureState.apply_of_ne_pending op h]
      exact ih

theorem FutureState.apply_pending_ne_pending (op : FOp T E) :
    (FutureState.pending.apply op).1 ≠ (.pending : FutureState T E) := by
  cases op <;> simp [FutureState.apply]

/-- C2: for every Future, the transition out of Pending happens at most once
and is one-way: every writer operation applied to the Pending state produces a
non-pending state and reports no error; once the Future is non-pending, any
further resolve, fail or cancel reports InvalidStateError and leaves the state
unchanged, so any sequence of further operations leaves the state fixed. -/
theorem future_single_transition {T E : Type} (s : FutureState T E) (op : FOp T E)
    (ops : List (FOp T E)) (h : s ≠ .pending) :
    (FutureState.pending.apply op).1 ≠ (.pending : FutureState T E) ∧
    (FutureState.pending.apply op).2 = none ∧
    s.apply op = (s, some .invalidState) ∧
    s.applyAll ops = s :=
  ⟨FutureState.apply_pending_ne_pending op,
   by cases op <;> rfl,
   FutureState.apply_of_ne_pending op h,
   FutureState.applyAll_of_ne_pending ops h⟩

/-- Witness for C2: a fulfilled Future of naturals rejects a cancel and is
left unchanged by a further resolve-fail-cancel sequence. -/
theorem future_single_transition_witness :
    ((FutureState.pending.apply (FOp.cancel : FOp Nat Nat)).1 ≠ .pending) ∧
    (FutureState.pending.apply (FOp.cancel : FOp Nat Nat)).2 = none ∧
    (FutureState.fulfilled 7).apply (FOp.cancel : FOp Nat Nat) =
      (.fulfilled 7, some .invalidState) ∧
    (FutureState.fulfilled 7).applyAll [FOp.resolve 1, FOp.fail 2, .cancel] =
      .fulfilled 7 :=
  future_single_transition (.fulfilled 7) .cancel [FOp.resolve 1, FOp.fail 2, .cancel]
    (by simp)

/-! ## BoundedSemaphore (spec sections 3 and 4.1) -/

/-- Error raised when a bounded semaphore is released beyond its initial
capacity (spec section 7). -/
inductive SemError where
  | overRelease
  deriving DecidableEq, Repr

/-- Modelled from the spec: a counting semaphore whose bounded variant
enforces permits less than or equal to the initial value; the repository only
constructs a library BoundedSemaphore. `cap` is the initial capacity. -/
structure BoundedSemaphore where
  cap : Nat
  permits : Nat
  deriving DecidableEq, Repr

/-- Modelled from the spec: `release()` increments; the bounded variant fails
with OverReleaseError if incrementing above the initial capacity. On failure
the permit count is left as it was. -/
def BoundedSemaphore.release (s : BoundedSemaphore) :
    Except SemError BoundedSemaphore :=
  if s.cap ≤ s.permits then .error .overRelease
  else .ok { s with permits := s.permits + 1 }

/-- Modelled from the spec: `acquire()` blocks while permits are zero and
decrements atomically when permits are positive; `none` stands for the
blocked case, which never arises in the traces considered here. -/
def BoundedSemaphore.acquire (s : BoundedSemaphore) : Option BoundedSemaphore :=
  if s.permits = 0 then none
  else some { s with permits := s.permits - 1 }

/-- A semaphore operation of a trace. -/
inductive SemOp where
  | acquire
  | release
  deriving DecidableEq, Repr

/-- Run a trace of semaphore operations. A blocked acquire or failed release
stops the trace; a failed release reports the error together with the
uncorrected semaphore state. -/
def BoundedSemaphore.runOps (s : BoundedSemaphore) :
    List SemOp → Except (SemError × BoundedSemaphore) BoundedSemaphore
  | [] => .ok s
  | .acquire :: rest =>
      match s.acquire with
      | none => .ok s
      | some s' => s'.runOps rest
  | .release :: rest =>
      match s.release with
      | .error e => .error (e, s)
      | .ok s' => s'.runOps rest

/-- C4: on a BoundedSemaphore of initial capacity 2, two acquires followed by
three releases fail at the third release with OverReleaseError, reported
synchronously to the caller with the permit count still at the (full) value 2
rather than silently corrected; the same trace without the third release runs
to completion. Generally, releasing any bounded semaphore whose permits
already equal its capacity fails with OverReleaseError. -/
theorem bounded_semaphore_over_release :
    (BoundedSemaphore.mk 2 2).runOps
        [.acquire, .acquire, .release, .release, .release] =
      .error (.overRelease, ⟨2, 2⟩) ∧
    (BoundedSemaphore.mk 2 2).runOps [.acquire, .acquire, .release, .release] =
      .ok ⟨2, 2⟩ ∧
    ∀ s : BoundedSemaphore, s.permits = s.cap →
      s.release = .error .overRelease := by
  refine ⟨rfl, rfl, ?_⟩
  intro s h
  simp [BoundedSemaphore.release, h]

/-- Witness for C4: the general over-release clause applied to the
capacity-2 semaphore at full permits. -/
theorem bounded_semaphore_over_release_witness :
    (BoundedSemaphore.mk 2 2).release = .error .overRelease :=
  bounded_semaphore_over_release.2.2 ⟨2, 2⟩ rfl

/-! ## AsyncCounter (src/python/advanced/02_asyncio_example.py, lines 207-221) -/

/-- The asynchronous counter of the source: `__init__(self, limit)` stores the
limit and sets the counter to 0. -/
structure AsyncCounter where
  limit : Nat
  counter : Nat
  deriving DecidableEq, Repr

/-- `__anext__`: if the counter is below the limit, increment it and yield its
new value; otherwise raise StopAsyncIteration, modelled as `none`. -/
def AsyncCounter.anext (c : AsyncCounter) : Option (Nat × AsyncCounter) :=
  if c.counter < c.limit then
    some (c.counter + 1, { c with counter := c.counter + 1 })
  else
    none

/-- The `async for` loop over the counter: collect yielded values until
`__anext__` signals end of iteration. -/
def AsyncCounter.run (c : AsyncCounter) : List Nat :=
  if h : c.counter < c.limit then
    (c.counter + 1) :: AsyncCounter.run { c with counter := c.counter + 1 }
  else
    []
  termination_by c.limit - c.counter
  decreasing_by omega

theorem AsyncCounter.run_eq_anext (c : AsyncCounter) :
    c.run = match c.anext with
            | none => []
            | some (v, c') => v :: c'.run := by
  rw [AsyncCounter.run, AsyncCounter.anext]
  by_cases h : c.counter < c.limit <;> simp [h]

theorem AsyncCounter.run_general (c : AsyncCounter) :
    c.run = (List.range (c.limit - c.counter)).map (fun i => c.counter + 1 + i) := by
  rw [AsyncCounter.run]
  by_cases h : c.counter < c.limit
  · simp only [h, dite_true]
    rw [AsyncCounter.run_general { c with counter := c.counter + 1 }]
    have hr : c.limit - c.counter = (c.limit - (c.counter + 1)) + 1 := by omega
    rw [hr, List.range_succ_eq_map]
    simp [Function.comp_def]
    intro i _
    omega
  · simp only [h, dite_false]
    have : c.limit - c.counter = 0 := by omega
    simp [this]
  termination_by c.limit - c.counter
  decreasing_by omega

/-- C10: asynchronously iterating AsyncCounter(limit) yields exactly the
sequence 1, 2, ..., limit in increasing order and then `__anext__` signals
end of iteration; for limit 0 it yields nothing. -/
theorem async_counter_yields_range (limit : Nat) :
    (AsyncCounter.mk limit 0).run = (List.range limit).map (· + 1) ∧
    (AsyncCounter.mk limit limit).anext = none ∧
    (AsyncCounter.mk 0 0).run = [] := by
  refine ⟨?_, ?_, ?_⟩
  · rw [AsyncCounter.run_general]
    simp
    intro i _
    omega
  · simp [AsyncCounter.anext]
  · rw [AsyncCounter.run_general]
    simp

/-! ## Executor map (spec section 4.4) -/

/-- Modelled from the spec: the executor's `map(fn, iterable)` dispatches one
task per input slot; workers complete tasks in an arbitrary completion order
(`order` lists input indices in the order their tasks finish, the repository
only calls a library executor's map); each completion stores its result into
the slot of its input index, and the result sequence is read out by input
index. `none` marks a slot whose task never completed. -/
def execMap (fn : α → β) (inputs : List α) (order : List (Fin inputs.length)) :
    List (Option β) :=
  order.foldl (fun acc i => acc.set i.val (some (fn inputs[i.val])))
    (List.replicate inputs.length none)

theorem foldl_set_length (fn : α → β) (inputs : List α)
    (order : List (Fin inputs.length)) (acc : List (Option β)) :
    (order.foldl (fun a i => a.set i.val (some (fn inputs[i.val]))) acc).length =
      acc.length := by
  induction order generalizing acc with
  | nil => rfl
  | cons i rest ih => rw [List.foldl_cons, ih]; simp

theorem foldl_set_getElem? (fn : α → β) (inputs : List α)
    (order : List (Fin inputs.length)) (acc : List (Option β))
    (hlen : acc.length = inputs.length) (j : Fin inputs.length) :
    (order.foldl (fun a i => a.set i.val (some (fn inputs[i.val]))) acc)[j.val]? =
      if j ∈ order then some (some (fn inputs[j.val])) else acc[j.val]? := by
  induction order generalizing acc with
  | nil => simp
  | cons i rest ih =>
      rw [List.foldl_cons, ih _ (by simp [hlen])]
      by_cases hmem : j ∈ rest
      · simp [hmem]
      · by_cases hij : i = j
        · subst hij
          have hi : i.val < acc.length := by rw [hlen]; exact i.isLt
          simp [hmem, List.getElem?_set_self hi]
        · have hv : i.val ≠ j.val := fun hc => hij (Fin.val_injective hc)
          have hji : ¬j = i := fun hc => hij hc.symm
          simp [hmem, hji, List.getElem?_set_ne hv]

theorem execMap_complete (fn : α → β) (inputs : List α)
    (order : List (Fin inputs.length)) (hall : ∀ i, i ∈ order) :
    execMap fn inputs order = inputs.map (fun x => some (fn x)) := by
  apply List.ext_getElem?
  intro n
  by_cases hn : n < inputs.length
  · have h := foldl_set_getElem? fn inputs order (List.replicate inputs.length none)
      (by simp) ⟨n, hn⟩
    simp only [hall ⟨n, hn⟩, if_true, Fin.val_mk] at h
    rw [execMap, h]
    simp [hn]
  · have h1 : (execMap fn inputs order).length ≤ n := by
      rw [execMap, foldl_set_length]
      simp
      omega
    have h2 : (inputs.map (fun x => some (fn x))).length ≤ n := by
      simp
      omega
    rw [List.getElem?_eq_none h1, List.getElem?_eq_none h2]

/-- C1: the executor's map returns results ordered to match the input order
for every function, input list and completion order that finishes every
task (any worker count yields such a completion order); in particular
mapping squaring over [1,2,3,4,5], here under the completion order
5th,2nd,4th,1st,3rd, yields exactly [1,4,9,16,25]. -/
theorem executor_map_input_order :
    (∀ {α β : Type} (fn : α → β) (inputs : List α)
      (order : List (Fin inputs.length)), (∀ i, i ∈ order) →
      execMap fn inputs order = inputs.map (fun x => some (fn x))) ∧
    execMap (fun n => n * n) [1, 2, 3, 4, 5]
      [⟨4, by decide⟩, ⟨1, by decide⟩, ⟨3, by decide⟩, ⟨0, by decide⟩,
        ⟨2, by decide⟩] =
      [some 1, some 4, some 9, some 16, some 25] :=
  ⟨fun fn inputs order hall => execMap_complete fn inputs order hall, by decide⟩

/-- Witness for C1: the universal clause applied to squaring over [1,2,3,4,5]
with a scrambled completion order. -/
theorem executor_map_input_order_witness :
    execMap (fun n : Nat => n * n) [1, 2, 3, 4, 5]
      [⟨4, by decide⟩, ⟨1, by decide⟩, ⟨3, by decide⟩, ⟨0, by decide⟩,
        ⟨2, by decide⟩] =
      [1, 2, 3, 4, 5].map (fun x => some (x * x)) :=
  executor_map_input_order.1 (fun n : Nat => n * n) [1, 2, 3, 4, 5]
    [⟨4, by decide⟩, ⟨1, by decide⟩, ⟨3, by decide⟩, ⟨0, by decide⟩,
      ⟨2, by decide⟩] (by decide)

/-! ## cpu_bound and the process pool (src/python/advanced/01_multiprocessing_example.py) -/

/-- `cpu_bound(number)` from line 34: the sum of i*i for i in range(number). -/
def cpu_bound (number : Nat) : Nat :=
  ((List.range number).map (fun i => i * i)).sum

/-- The sequential execution of line 39: the list comprehension applying
cpu_bound to each input in order. -/
def sequentialResults (inputs : List Nat) : List Nat :=
  inputs.map cpu_bound

/-- C9: applying cpu_bound to each input through the process pool's map, under
any completion order that finishes every task, produces exactly the sequential
list comprehension's results: the parallel run refines the sequential one. -/
theorem pool_map_refines_sequential (inputs : List Nat)
    (order : List (Fin inputs.length)) (hall : ∀ i, i ∈ order) :
    execMap cpu_bound inputs order = (sequentialResults inputs).map some := by
  rw [execMap_complete cpu_bound inputs order hall, sequentialResults,
    List.map_map]
  rfl

/-- Witness for C9: inputs [3,4,5] under the completion order 3rd,1st,2nd. -/
theorem pool_map_refines_sequential_witness :
    execMap cpu_bound [3, 4, 5]
      [⟨2, by decide⟩, ⟨0, by decide⟩, ⟨1, by decide⟩] =
      (sequentialResults [3, 4, 5]).map some :=
  pool_map_refines_sequential [3, 4, 5]
    [⟨2, by decide⟩, ⟨0, by decide⟩, ⟨1, by decide⟩] (by decide)

/-! ## Worker loop and crash policy (spec sections 4.4 and 7) -/

/-- A worker's view of one dequeued task: its execution outcome, either a
produced value or the uncaught error raised inside the task's code. -/
abbrev TaskRun (T E : Type) := Except E T

/-- Modelled from the spec: resolving a task's Future from its run — a value
fulfils the Future, an uncaught error is captured and stored as Failed. -/
def runTask (t : TaskRun T E) : FutureState T E :=
  match t with
  | .ok v => .fulfilled v
  | .error e => .failed e

/-- Modelled from the spec: a worker unit, Idle between tasks, with the
Futures it has resolved so far in dequeue order. -/
structure WorkerState (T E : Type) where
  idle : Bool
  completed : List (FutureState T E)

/-- Modelled from the spec: the worker leaves Idle to run one task, captures
any uncaught error into that task's Future instead of rethrowing, and returns
to Idle; the repository's scripts only observe a library pool doing this. -/
def workerStep (st : WorkerState T E) (t : TaskRun T E) : WorkerState T E :=
  { idle := true, completed := st.completed ++ [runTask t] }

/-- The worker's service loop over its queue of tasks. -/
def workerLoop (tasks : List (TaskRun T E)) : WorkerState T E :=
  tasks.foldl workerStep ⟨true, []⟩

theorem workerLoop_aux (tasks : List (TaskRun T E)) (acc : List (FutureState T E)) :
    tasks.foldl workerStep ⟨true, acc⟩ = ⟨true, acc ++ tasks.map runTask⟩ := by
  induction tasks generalizing acc with
  | nil => simp
  | cons t rest ih =>
      rw [List.foldl_cons]
      show List.foldl workerStep ⟨true, acc ++ [runTask t]⟩ rest = _
      rw [ih]
      simp

theorem workerLoop_eq (tasks : List (TaskRun T E)) :
    workerLoop tasks = ⟨true, tasks.map runTask⟩ := by
  rw [workerLoop, workerLoop_aux]
  simp

/-- C3: an uncaught error in a task is captured and stored on that task's
Future as Failed, never escaping the worker: after serving any task list the
worker is back to Idle, every task (including those queued after a failing
one) got its Future resolved in order, a task's Future is Failed with error e
exactly when the task raised e, and no Future is left Pending. -/
theorem worker_captures_errors {T E : Type} (tasks : List (TaskRun T E)) :
    (workerLoop tasks).idle = true ∧
    (workerLoop tasks).completed = tasks.map runTask ∧
    (∀ (k : Nat) (e : E), tasks[k]? = some (.error e) ↔
      (workerLoop tasks).completed[k]? = some (.failed e)) ∧
    ∀ f ∈ (workerLoop tasks).completed, f ≠ FutureState.pending := by
  rw [workerLoop_eq]
  refine ⟨rfl, rfl, ?_, ?_⟩
  · intro k e
    rw [List.getElem?_map]
    constructor
    · intro h
      rw [h]
      rfl
    · intro h
      match hk : tasks[k]? with
      | none => rw [hk] at h; exact absurd h (by simp)
      | some (.ok v) => rw [hk] at h; exact absurd h (by simp [runTask])
      | some (.error e') =>
          rw [hk] at h
          simp [runTask] at h
          rw [h]
  · intro f hf
    rw [List.mem_map] at hf
    obtain ⟨t, _, ht⟩ := hf
    cases t <;> simp [runTask] at ht <;> rw [← ht] <;> simp

/-- Witness for C3: serving [ok 1, error 5, ok 2] ends Idle with Futures
[fulfilled 1, failed 5, fulfilled 2]; the failed entry is not Pending. -/
theorem worker_captures_errors_witness :
    (workerLoop [Except.ok 1, Except.error 5, Except.ok 2]).completed =
      [FutureState.fulfilled 1, .failed 5, .fulfilled 2] ∧
    (FutureState.failed 5 ≠ (FutureState.pending : FutureState Nat Nat)) :=
  ⟨(worker_captures_errors [Except.ok 1, Except.error 5, Except.ok 2]).2.1,
   (worker_captures_errors [Except.ok 1, Except.error 5, Except.ok 2]).2.2.2
     (.failed 5) (by decide)⟩

/-! ## Cancellation (spec section 4.4) -/

/-- Modelled from the spec: a submitted task's lifecycle status inside the
pool. -/
inductive TaskStatus where
  | queued
  | running
  | finished
  | cancelledTask
  deriving DecidableEq, Repr

/-- A task has started running once it is Running or has finished. -/
def TaskStatus.hasStarted : TaskStatus → Bool
  | .running => true
  | .finished => true
  | _ => false

/-- Modelled from the spec: a pool with the FIFO queue of not-yet-started
task ids and a status table indexed by task id. -/
structure PoolState where
  queue : List Nat
  statuses : List TaskStatus

/-- Modelled from the spec: `future.cancel()` succeeds only if the task has
not yet started running, removing it from the queue and cancelling its
Future; once running it is advisory only and returns false without touching
the task. A task already cancelled is out of the queue and stays cancelled;
as in the library the repository calls, cancelling it again reports success
without any change. -/
def PoolState.cancel (p : PoolState) (id : Nat) : Bool × PoolState :=
  match p.statuses[id]? with
  | some .queued =>
      (true, { queue := p.queue.erase id,
               statuses := p.statuses.set id .cancelledTask })
  | some .cancelledTask => (true, p)
  | _ => (false, p)

/-- C5: cancel succeeds exactly when the task has not yet started running;
a started (running or finished) task is left untouched and cancel reports
false, while a queued task is removed from the queue and its status becomes
cancelled. -/
theorem cancel_iff_not_started (p : PoolState) (id : Nat) (st : TaskStatus)
    (hst : p.statuses[id]? = some st) :
    ((p.cancel id).1 = true ↔ st.hasStarted = false) ∧
    (st.hasStarted = true → (p.cancel id).2 = p) ∧
    (st = .queued → (p.cancel id).2.statuses[id]? = some .cancelledTask ∧
      (p.cancel id).2.queue = p.queue.erase id) := by
  have hid : id < p.statuses.length := by
    by_contra hc
    rw [List.getElem?_eq_none (by omega)] at hst
    exact absurd hst (by simp)
  cases st with
  | queued =>
      refine ⟨by simp [PoolState.cancel, hst, TaskStatus.hasStarted], ?_, ?_⟩
      · intro h
        exact absurd h (by simp [TaskStatus.hasStarted])
      · intro _
        exact ⟨by simp [PoolState.cancel, hst, List.getElem?_set_self hid],
          by simp [PoolState.cancel, hst]⟩
  | running =>
      exact ⟨by simp [PoolState.cancel, hst, TaskStatus.hasStarted],
        fun _ => by simp [PoolState.cancel, hst], fun h => by cases h⟩
  | finished =>
      exact ⟨by simp [PoolState.cancel, hst, TaskStatus.hasStarted],
        fun _ => by simp [PoolState.cancel, hst], fun h => by cases h⟩
  | cancelledTask =>
      exact ⟨by simp [PoolState.cancel, hst, TaskStatus.hasStarted],
        fun h => by simp [TaskStatus.hasStarted] at h, fun h => by cases h⟩

/-- Witness for C5: in a pool with task 0 queued and task 1 running,
cancelling task 0 succeeds and cancelling task 1 fails without change. -/
theorem cancel_iff_not_started_witness :
    (((PoolState.mk [0] [.queued, .running]).cancel 0).1 = true ↔
      TaskStatus.queued.hasStarted = false) ∧
    (TaskStatus.running.hasStarted = true →
      ((PoolState.mk [0] [.queued, .running]).cancel 1).2 =
        PoolState.mk [0] [.queued, .running]) :=
  ⟨(cancel_iff_not_started (PoolState.mk [0] [.queued, .running]) 0
      .queued rfl).1,
   (cancel_iff_not_started (PoolState.mk [0] [.queued, .running]) 1
      .running rfl).2.1⟩

/-! ## gather (spec section 4.5) -/

/-- Modelled from the spec: a cooperative task as gather observes it: the
loop step at which it reaches a terminal state, and its outcome there. The
repository only awaits a library gather. -/
structure ATask (T E : Type) where
  finish : Nat
  outcome : Except E T

/-- Modelled from the spec: gather suspends the caller until all listed
tasks complete, so the caller resumes at the latest finish time of the
listed tasks, whatever their outcomes. -/
def gatherResume (tasks : List (ATask T E)) : Nat :=
  tasks.foldl (fun m t => max m t.finish) 0

/-- Modelled from the spec: the adopted aggregation policy — results in
input order when all tasks succeed, otherwise the error of the first failed
task by input order. -/
def collectOutcomes : List (ATask T E) → Except E (List T)
  | [] => .ok []
  | t :: ts =>
      match t.outcome with
      | .error e => .error e
      | .ok v =>
          match collectOutcomes ts with
          | .error e => .error e
          | .ok vs => .ok (v :: vs)

/-- Modelled from the spec: gather = suspend until every task is terminal,
then aggregate. -/
def gather (tasks : List (ATask T E)) : Nat × Except E (List T) :=
  (gatherResume tasks, collectOutcomes tasks)

theorem foldl_max_init (l : List (ATask T E)) (a : Nat) :
    a ≤ l.foldl (fun m u => max m u.finish) a := by
  induction l generalizing a with
  | nil => exact le_refl a
  | cons u rest ih => exact le_trans (le_max_left a u.finish) (ih _)

theorem foldl_max_mem (l : List (ATask T E)) (a : Nat) (t : ATask T E)
    (ht : t ∈ l) : t.finish ≤ l.foldl (fun m u => max m u.finish) a := by
  induction l generalizing a with
  | nil => cases ht
  | cons u rest ih =>
      rw [List.foldl_cons]
      rcases List.mem_cons.mp ht with h | h
      · subst h
        exact le_trans (le_max_right a t.finish) (foldl_max_init rest _)
      · exact ih _ h

theorem collectOutcomes_all_ok {T E : Type} (ts : List (Nat × T)) :
    collectOutcomes (E := E) (ts.map (fun p => ATask.mk p.1 (.ok p.2))) =
      .ok (ts.map Prod.snd) := by
  induction ts with
  | nil => rfl
  | cons p rest ih => simp [collectOutcomes, ih]

theorem collectOutcomes_first_error {T E : Type} (tasks : List (ATask T E))
    (k : Nat) (t : ATask T E) (e : E) (hk : tasks[k]? = some t)
    (he : t.outcome = .error e)
    (hok : ∀ j, j < k → ∀ t', tasks[j]? = some t' → ∃ v, t'.outcome = .ok v) :
    collectOutcomes tasks = .error e := by
  induction tasks generalizing k with
  | nil => rw [List.getElem?_nil] at hk; exact absurd hk (by simp)
  | cons u rest ih =>
      cases k with
      | zero =>
          rw [List.getElem?_cons_zero] at hk
          have : u = t := by injection hk
          subst this
          simp [collectOutcomes, he]
      | succ k' =>
          obtain ⟨v, hv⟩ := hok 0 (Nat.succ_pos k') u List.getElem?_cons_zero
          rw [List.getElem?_cons_succ] at hk
          have hrest := ih k' hk (fun j hj t' hj' =>
            hok (j + 1) (Nat.succ_lt_succ hj) t' (by rw [List.getElem?_cons_succ]; exact hj'))
          simp [collectOutcomes, hv, hrest]

/-- C6: gather suspends the caller until every listed task has reached a
terminal state (the caller resumes no earlier than any task's finish time,
whatever the outcomes — no fail-fast); results are aggregated in input
order when all tasks succeed; and when some task fails, the aggregate error
is the error of the first failed task by input order, delivered only at
that resume point after all tasks are terminal. -/
theorem gather_waits_all_first_error {T E : Type} (tasks : List (ATask T E))
    (k : Nat) (t : ATask T E) (e : E) (hk : tasks[k]? = some t)
    (he : t.outcome = .error e)
    (hok : ∀ j, j < k → ∀ t', tasks[j]? = some t' → ∃ v, t'.outcome = .ok v) :
    (∀ u ∈ tasks, u.finish ≤ (gather tasks).1) ∧
    (∀ ts : List (Nat × T),
      (gather (E := E) (ts.map (fun p => ATask.mk p.1 (.ok p.2)))).2 =
        .ok (ts.map Prod.snd)) ∧
    (gather tasks).2 = .error e :=
  ⟨fun u hu => foldl_max_mem tasks 0 u hu,
   fun ts => collectOutcomes_all_ok ts,
   collectOutcomes_first_error tasks k t e hk he hok⟩

/-- Witness for C6: of the tasks finishing at steps 3, 9 and 1 where the
second (input order) fails with error 7 and the third fails with error 8,
gather resumes no earlier than step 9 and reports error 7. -/
theorem gather_waits_all_first_error_witness :
    ((ATask.mk 9 (Except.error 7) : ATask Nat Nat).finish ≤
      (gather [ATask.mk 3 (Except.ok 0), ATask.mk 9 (Except.error 7),
        ATask.mk 1 (Except.error 8)]).1) ∧
    (gather [ATask.mk 3 (Except.ok 0), ATask.mk 9 (Except.error 7),
        ATask.mk 1 (Except.error 8)]).2 = .error 7 := by
  have h := gather_waits_all_first_error
    [ATask.mk 3 (Except.ok 0), ATask.mk 9 (Except.error 7),
      ATask.mk 1 (Except.error 8)] 1 (ATask.mk 9 (Except.error 7)) 7
    rfl rfl (by
      intro j hj t' hj'
      interval_cases j
      exact ⟨0, by injection hj' with h; rw [← h]; rfl⟩)
  exact ⟨h.1 (ATask.mk 9 (Except.error 7)) (by simp), h.2.2⟩

/-! ## Executor shutdown (spec section 4.4) -/

/-- Error raised by submit after shutdown (spec section 7). -/
inductive ExecError where
  | executorShutdown
  deriving DecidableEq, Repr

/-- Modelled from the spec: an executor — whether shutdown was initiated,
the queued not-yet-executed tasks, and the Futures resolved so far. The
repository only constructs library executors. -/
structure Executor (T E : Type) where
  isShutdown : Bool
  pending : List (TaskRun T E)
  completed : List (FutureState T E)

/-- Modelled from the spec: `shutdown with wait true` stops accepting new
submissions and blocks until all queued and in-flight tasks complete: the
workers drain the queue, resolving each task's Future in order. It is a
total function — it cannot raise. -/
def Executor.shutdownWait (ex : Executor T E) : Executor T E :=
  { isShutdown := true, pending := [],
    completed := ex.completed ++ ex.pending.map runTask }

/-- Modelled from the spec: after shutdown, further submit fails with
ExecutorShutdownError. -/
def Executor.submit (ex : Executor T E) (t : TaskRun T E) :
    Except ExecError (Executor T E) :=
  if ex.isShutdown then .error .executorShutdown
  else .ok { ex with pending := ex.pending ++ [t] }

/-- C7: calling `shutdown with wait true` a second time on an already-shut-down
pool is a no-op: it raises nothing (shutdown is a total function with no
error outcome) and leaves the pool's state exactly as the first shutdown
left it; the pool stays shut down, with no queued tasks and the same
resolved Futures, and still rejects submissions. -/
theorem shutdown_idempotent {T E : Type} (ex : Executor T E) (t : TaskRun T E) :
    ex.shutdownWait.shutdownWait = ex.shutdownWait ∧
    ex.shutdownWait.isShutdown = true ∧
    ex.shutdownWait.pending = [] ∧
    ex.shutdownWait.submit t = .error .executorShutdown := by
  refine ⟨?_, rfl, rfl, rfl⟩
  simp [Executor.shutdownWait]

/-! ## Pool scheduling: bounded running set and terminal Futures
(spec sections 3 and 8) -/

/-- A Future state is terminal when it is Fulfilled, Failed or Cancelled. -/
def FutureState.isTerminal : FutureState T E → Bool
  | .pending => false
  | _ => true

/-- Modelled from the spec: the scheduling state of a WorkerPool run — the
ids of submitted tasks still queued (FIFO), the ids currently running (each
occupying one worker), and the finished tasks with the terminal Future
state each one reached. -/
structure SchedState (T E : Type) where
  queued : List Nat
  running : List Nat
  finished : List (Nat × FutureState T E)

/-- Modelled from the spec: one scheduling event of a pool of K workers —
either the head of the queue is dispatched to a free worker (possible only
while fewer than K tasks are running), or a running task finishes, its
Future reaching some terminal state. -/
inductive PStep (K : Nat) : SchedState T E → SchedState T E → Prop where
  | dispatch (s : SchedState T E) (id : Nat) (rest : List Nat)
      (hq : s.queued = id :: rest) (hK : s.running.length < K) :
      PStep K s ⟨rest, id :: s.running, s.finished⟩
  | finish (s : SchedState T E) (id : Nat) (f : FutureState T E)
      (hid : id ∈ s.running) (hf : f.isTerminal = true) :
      PStep K s ⟨s.queued, s.running.erase id, (id, f) :: s.finished⟩

/-- The initial state of a run: all N submitted task ids queued, no worker
busy, nothing finished. -/
def initSched (tasks : List Nat) : SchedState T E := ⟨tasks, [], []⟩

/-- The task ids present in a scheduling state. -/
def SchedState.ids (s : SchedState T E) : List Nat :=
  s.queued ++ s.running ++ s.finished.map Prod.fst

/-- Progress measure of a run: strictly decreases at every scheduling
event, so every run terminates. -/
def SchedState.left (s : SchedState T E) : Nat :=
  2 * s.queued.length + s.running.length

theorem pstep_invariant {T E : Type} (K : Nat) (tasks : List Nat)
    {s s' : SchedState T E}
    (hinv : s.running.length ≤ K ∧ s.ids.Perm tasks ∧
      ∀ p ∈ s.finished, (p.2).isTerminal = true)
    (hstep : PStep K s s') :
    s'.running.length ≤ K ∧ s'.ids.Perm tasks ∧
      ∀ p ∈ s'.finished, (p.2).isTerminal = true := by
  obtain ⟨hK, hperm, hterm⟩ := hinv
  cases hstep with
  | dispatch id rest hq hKlt =>
      refine ⟨by simpa using hKlt, ?_, hterm⟩
      refine List.Perm.trans ?_ hperm
      rw [SchedState.ids, SchedState.ids, hq]
      simp only [List.append_assoc, List.cons_append]
      exact List.perm_middle
  | finish id f hid hf =>
      refine ⟨?_, ?_, ?_⟩
      · exact le_trans (List.length_erase_le id s.running) hK
      · refine List.Perm.trans ?_ hperm
        rw [SchedState.ids, SchedState.ids]
        simp only [List.append_assoc, List.map_cons]
        refine List.Perm.append_left s.queued ?_
        exact List.Perm.trans List.perm_middle
          (List.Perm.symm (List.Perm.append_right (s.finished.map Prod.fst)
            (List.perm_cons_erase hid)))
      · intro p hp
        rcases List.mem_cons.mp hp with h | h
        · rw [h]; exact hf
        · exact hterm p h

theorem reach_invariant {T E : Type} (K : Nat) (tasks : List Nat)
    (s : SchedState T E)
    (hreach : Relation.ReflTransGen (PStep K) (initSched tasks) s) :
    s.running.length ≤ K ∧ s.ids.Perm tasks ∧
      ∀ p ∈ s.finished, (p.2).isTerminal = true := by
  induction hreach with
  | refl =>
      refine ⟨by simp [initSched], ?_, by simp [initSched]⟩
      simp [initSched, SchedState.ids]
  | tail _ hbc ih => exact pstep_invariant K tasks ih hbc

/-- C8: for a WorkerPool of size K, every state reachable from N submissions
has at most K tasks running simultaneously; the submitted tasks are exactly
those queued, running or finished, each finished one holding exactly one
terminal Future state (Fulfilled, Failed or Cancelled, never Pending); from
any state with work left some scheduling event is possible (K at least 1)
while the progress measure strictly decreases at every event, so every run
ends in a drained state, where every submitted task has finished exactly
once with a terminal Future state. -/
theorem pool_bounded_and_terminal {T E : Type} :
    (∀ (K : Nat) (tasks : List Nat) (s : SchedState T E),
      Relation.ReflTransGen (PStep K) (initSched tasks) s →
      s.running.length ≤ K ∧ s.ids.Perm tasks ∧
        ∀ p ∈ s.finished, (p.2).isTerminal = true) ∧
    (∀ (K : Nat) (s : SchedState T E), 1 ≤ K →
      (s.queued ≠ [] ∨ s.running ≠ []) → ∃ s', PStep K s s') ∧
    (∀ (K : Nat) (s s' : SchedState T E), PStep K s s' →
      s'.left < s.left) ∧
    (∀ (K : Nat) (tasks : List Nat) (s : SchedState T E),
      Relation.ReflTransGen (PStep K) (initSched tasks) s →
      s.queued = [] → s.running = [] →
      (s.finished.map Prod.fst).Perm tasks ∧
        (tasks.Nodup → ∀ id ∈ tasks, (s.finished.map Prod.fst).count id = 1)) := by
  refine ⟨reach_invariant, ?_, ?_, ?_⟩
  · intro K s hK h
    cases hr : s.running with
    | cons id rest =>
        exact ⟨_, PStep.finish s id .cancelled
          (by rw [hr]; exact List.mem_cons_self id rest) rfl⟩
    | nil =>
        cases hq : s.queued with
        | nil =>
            rcases h with h | h
            · exact absurd hq h
            · exact absurd hr h
        | cons id rest =>
            exact ⟨_, PStep.dispatch s id rest hq (by rw [hr]; simpa using hK)⟩
  · intro K s s' hstep
    cases hstep with
    | dispatch id rest hq hKlt =>
        simp [SchedState.left, hq]
        omega
    | finish id f hid hf =>
        have h1 : (s.running.erase id).length = s.running.length - 1 :=
          List.length_erase_of_mem hid
        have h2 : 1 ≤ s.running.length := List.length_pos.mpr
          (List.ne_nil_of_mem hid)
        simp [SchedState.left, h1]
        omega
  · intro K tasks s hreach hq hr
    have hperm := (reach_invariant K tasks s hreach).2.1
    rw [SchedState.ids, hq, hr] at hperm
    simp at hperm
    refine ⟨hperm, ?_⟩
    intro hnd id hid
    rw [List.Perm.count_eq hperm]
    exact List.count_eq_one_of_mem hnd hid

/-- Witness for C8: with one worker and the single submission 0, the initial
state respects the bound and a dispatch event strictly decreases the
progress measure. -/
theorem pool_bounded_and_terminal_witness :
    ((initSched [0] : SchedState Nat Nat).running.length ≤ 1) ∧
    ((⟨[], [0], []⟩ : SchedState Nat Nat).left <
      (initSched [0] : SchedState Nat Nat).left) :=
  ⟨(pool_bounded_and_terminal.1 1 [0] (initSched [0])
      Relation.ReflTransGen.refl).1,
   pool_bounded_and_terminal.2.2.1 1 (initSched [0]) ⟨[], [0], []⟩
     (PStep.dispatch (initSched [0]) 0 [] rfl (by simp [initSched]))⟩

end Concurrency
